import Mathlib

/-!
# Private DAO voting engine and client verifier — verification development

Shallow embedding of the private-dao-ark voting system:

* the browser client's vote-hash computation (`handleVote` in
  `VoteOnProposal.tsx`) and inclusion-proof verifier (`verifyProof` in
  `VoteProofs.tsx`), translated from the TypeScript source;
* the off-chain tally engine (leaf fingerprints, Merkle tree, inclusion
  proofs, per-voter latest-wins reduction, attestation), modelled from the
  specification since `tally.rs` is not among the provided sources;
* a byte-level executable SHA-256 (FIPS 180-4), so that concrete
  inputs can be evaluated exactly as the code would evaluate them.

Bytes are `List Nat` with each element kept below 256; 32-bit words are
`Nat` with explicit `% 2^32` where overflow matters.
-/

namespace PrivateDao

/-! ## SHA-256 over byte lists (FIPS 180-4) -/

/-- 2^32, the 32-bit word modulus. -/
def M32 : Nat := 4294967296

/-- Right rotation of a 32-bit word (input assumed < 2^32; the final
`% M32` discards the spill of the left shift). -/
def rotr (n k : Nat) : Nat := ((n >>> k) ||| (n <<< (32 - k))) % M32

/-- SHA-256 Ch function; complement is xor with the all-ones word. -/
def ch (x y z : Nat) : Nat := (x &&& y) ^^^ ((x ^^^ 4294967295) &&& z)

/-- SHA-256 Maj function. -/
def maj (x y z : Nat) : Nat := (x &&& y) ^^^ (x &&& z) ^^^ (y &&& z)

/-- SHA-256 Σ0. -/
def bigS0 (x : Nat) : Nat := rotr x 2 ^^^ rotr x 13 ^^^ rotr x 22

/-- SHA-256 Σ1. -/
def bigS1 (x : Nat) : Nat := rotr x 6 ^^^ rotr x 11 ^^^ rotr x 25

/-- SHA-256 σ0. -/
def smallS0 (x : Nat) : Nat := rotr x 7 ^^^ rotr x 18 ^^^ (x >>> 3)

/-- SHA-256 σ1. -/
def smallS1 (x : Nat) : Nat := rotr x 17 ^^^ rotr x 19 ^^^ (x >>> 10)

/-- The 64 SHA-256 round constants (FIPS 180-4, in decimal). -/
def K256 : List Nat :=
  [1116352408, 1899447441, 3049323471, 3921009573,
   961987163, 1508970993, 2453635748, 2870763221,
   3624381080, 310598401, 607225278, 1426881987,
   1925078388, 2162078206, 2614888103, 3248222580,
   3835390401, 4022224774, 264347078, 604807628,
   770255983, 1249150122, 1555081692, 1996064986,
   2554220882, 2821834349, 2952996808, 3210313671,
   3336571891, 3584528711, 113926993, 338241895,
   666307205, 773529912, 1294757372, 1396182291,
   1695183700, 1986661051, 2177026350, 2456956037,
   2730485921, 2820302411, 3259730800, 3345764771,
   3516065817, 3600352804, 4094571909, 275423344,
   430227734, 506948616, 659060556, 883997877,
   958139571, 1322822218, 1537002063, 1747873779,
   1955562222, 2024104815, 2227730452, 2361852424,
   2428436474, 2756734187, 3204031479, 3329325298]

/-- The SHA-256 initial state (a, b, c, d, e, f, g, h). -/
def initState : Nat × Nat × Nat × Nat × Nat × Nat × Nat × Nat :=
  (1779033703, 3144134277, 1013904242, 2773480762,
   1359893119, 2600822924, 528734635, 1541459225)

/-- Big-endian 8-byte encoding of a number (used for the length field of
the SHA-256 padding). -/
def be64 (n : Nat) : List Nat :=
  [n / 72057594037927936 % 256, n / 281474976710656 % 256,
   n / 1099511627776 % 256, n / 4294967296 % 256,
   n / 16777216 % 256, n / 65536 % 256, n / 256 % 256, n % 256]

/-- SHA-256 padding: append 0x80, zero bytes to 56 mod 64, then the
bit length as 8 big-endian bytes. -/
def padMessage (msg : List Nat) : List Nat :=
  msg ++ 128 :: List.replicate ((119 - msg.length % 64) % 64) 0
      ++ be64 (8 * msg.length)

/-- Split a byte list into 64-byte blocks. Structural recursion on a
fuel bound (one unit per block; the list length always suffices) keeps
the definition kernel-reducible. -/
def toBlocksAux : Nat → List Nat → List (List Nat)
  | 0, _ => []
  | _, [] => []
  | fuel + 1, l => l.take 64 :: toBlocksAux fuel (l.drop 64)

/-- Split a byte list into 64-byte blocks. -/
def toBlocks (l : List Nat) : List (List Nat) := toBlocksAux l.length l

/-- Pack bytes into 32-bit big-endian words. -/
def toWords : List Nat → List Nat
  | b0 :: b1 :: b2 :: b3 :: rest =>
      (b0 * 16777216 + b1 * 65536 + b2 * 256 + b3) :: toWords rest
  | _ => []

/-- Extend the 16 message words to the 64-entry message schedule; `k`
counts the remaining extension steps. -/
def buildW : Nat → List Nat → List Nat
  | 0, w => w
  | k + 1, w =>
      buildW k (w ++ [(smallS1 (w.getD (w.length - 2) 0)
        + w.getD (w.length - 7) 0
        + smallS0 (w.getD (w.length - 15) 0)
        + w.getD (w.length - 16) 0) % M32])

/-- One SHA-256 round; `kw` is the round constant plus schedule word. -/
def roundStep (st : Nat × Nat × Nat × Nat × Nat × Nat × Nat × Nat)
    (kw : Nat) : Nat × Nat × Nat × Nat × Nat × Nat × Nat × Nat :=
  match st with
  | (a, b, c, d, e, f, g, h) =>
      let t1 := (h + bigS1 e + ch e f g + kw) % M32
      let t2 := (bigS0 a + maj a b c) % M32
      ((t1 + t2) % M32, a, b, c, (d + t1) % M32, e, f, g)

/-- Compress one 64-byte block into the running state. -/
def compressBlock (st : Nat × Nat × Nat × Nat × Nat × Nat × Nat × Nat)
    (block : List Nat) : Nat × Nat × Nat × Nat × Nat × Nat × Nat × Nat :=
  let w := buildW 48 (toWords block)
  let kw := List.zipWith (fun k wi => (k + wi) % M32) K256 w
  match st, kw.foldl roundStep st with
  | (a, b, c, d, e, f, g, h), (a2, b2, c2, d2, e2, f2, g2, h2) =>
      ((a + a2) % M32, (b + b2) % M32, (c + c2) % M32, (d + d2) % M32,
       (e + e2) % M32, (f + f2) % M32, (g + g2) % M32, (h + h2) % M32)

/-- Big-endian byte decomposition of a 32-bit word. -/
def u32Bytes (w : Nat) : List Nat :=
  [w / 16777216 % 256, w / 65536 % 256, w / 256 % 256, w % 256]

/-- SHA-256 digest of a byte list, as 32 bytes. -/
def sha256Bytes (msg : List Nat) : List Nat :=
  let st := (toBlocks (padMessage msg)).foldl compressBlock initState
  u32Bytes st.1 ++ u32Bytes st.2.1 ++ u32Bytes st.2.2.1 ++ u32Bytes st.2.2.2.1
    ++ u32Bytes st.2.2.2.2.1 ++ u32Bytes st.2.2.2.2.2.1
    ++ u32Bytes st.2.2.2.2.2.2.1 ++ u32Bytes st.2.2.2.2.2.2.2

/-! ## Hex rendering, UTF-8 encoding, little-endian timestamps -/

/-- The lowercase hex alphabet. -/
def hexAlphabet : List Char := "0123456789abcdef".data

/-- One lowercase hex digit. -/
def hexDigitChar (n : Nat) : Char := hexAlphabet.getD n '0'

/-- Render bytes as lowercase hex characters, two digits per byte: the
client's `b.toString(16).padStart(2, '0')` and the engine's
`hex::encode`, which agree on bytes below 256. -/
def bytesToHex : List Nat → List Char
  | [] => []
  | b :: rest => hexDigitChar (b / 16) :: hexDigitChar (b % 16) :: bytesToHex rest

/-- Bytes to a lowercase hex string. -/
def bytesToHexStr (l : List Nat) : String := String.mk (bytesToHex l)

/-- UTF-8 encoding of one character (RFC 3629). -/
def utf8EncodeChar (c : Char) : List Nat :=
  let n := c.toNat
  if n < 128 then [n]
  else if n < 2048 then [192 ||| (n >>> 6), 128 ||| (n &&& 63)]
  else if n < 65536 then
    [224 ||| (n >>> 12), 128 ||| ((n >>> 6) &&& 63), 128 ||| (n &&& 63)]
  else
    [240 ||| (n >>> 18), 128 ||| ((n >>> 12) &&& 63),
     128 ||| ((n >>> 6) &&& 63), 128 ||| (n &&& 63)]

/-- UTF-8 encoding of a character list. -/
def utf8Bytes : List Char → List Nat
  | [] => []
  | c :: rest => utf8EncodeChar c ++ utf8Bytes rest

/-- UTF-8 encoding of a string: the browser's `new TextEncoder().encode`
and Rust's `str::as_bytes`. -/
def utf8Encode (s : String) : List Nat := utf8Bytes s.data

/-- SHA-256 of a string's UTF-8 bytes, rendered as lowercase hex: the
client component's `sha256(message)` helper. -/
def sha256Hex (s : String) : String := bytesToHexStr (sha256Bytes (utf8Encode s))

/-- 8-byte little-endian encoding of a 64-bit value, as produced by the
client's `DataView.setBigUint64(0, v, true)` and the engine's
`u64::to_le_bytes`; values at or above 2^64 wrap, matching both. -/
def le64 (n : Nat) : List Nat :=
  [n % 256, n / 256 % 256, n / 65536 % 256, n / 16777216 % 256,
   n / 4294967296 % 256, n / 1099511627776 % 256,
   n / 281474976710656 % 256, n / 72057594037927936 % 256]



/-! ## Decimal strings

The contract returns the vote timestamp as the decimal text of a `u64`
(NEAR JSON serialization), and the engine's `format!` renders integers
in decimal. `decString` is that wire encoding; `parseDec` is the
client's `BigInt(string)` on a digit string. -/

/-- One decimal digit character. -/
def decDigitChar (n : Nat) : Char := hexAlphabet.getD n '0'

/-- Decimal digits of `n`, most significant first; structural recursion
on fuel (`n + 1` always suffices since `n / 10 < n` for `n ≥ 10`). -/
def decDigitsAux : Nat → Nat → List Char
  | 0, _ => []
  | fuel + 1, n =>
      if n < 10 then [decDigitChar n]
      else decDigitsAux fuel (n / 10) ++ [decDigitChar (n % 10)]

/-- The decimal string of a natural number: the wire encoding of `u64`
and `u32` values in the contract's JSON and the engine's `format!`. -/
def decString (n : Nat) : String := String.mk (decDigitsAux (n + 1) n)

/-- One step of `BigInt` decimal parsing. -/
def parseStep (acc : Nat) (c : Char) : Nat := 10 * acc + (c.toNat - 48)

/-- `BigInt(s)` on a decimal digit string: fold the digits left to
right, exactly as arbitrary-precision decimal parsing does. -/
def parseDec (s : String) : Nat := s.data.foldl parseStep 0

/-! ## The shipped client verifier (`verifyProof`, `VoteProofs.tsx`)

Translated from the source: the loop keeps a `currentHash`, and for each
sibling computes `[currentHash, sibling].sort()`, concatenates the two
sorted strings, and hashes; at the end it compares with the stored root.
JavaScript `sort()` on two strings orders them by code units, which on
these ASCII hex strings agrees with Lean's lexicographic string order. -/

/-- JavaScript's default string comparison (code-unit lexicographic;
these hex strings are ASCII, so code units and code points agree). -/
def charListLt : List Char → List Char → Bool
  | [], [] => false
  | [], _ :: _ => true
  | _ :: _, [] => false
  | c :: cs, d :: ds =>
      if c.toNat < d.toNat then true
      else if d.toNat < c.toNat then false
      else charListLt cs ds

/-- String comparison as `sort()` uses it. -/
def strLt (a b : String) : Bool := charListLt a.data b.data

/-- `[currentHash, sibling].sort()` followed by `hashes[0] + hashes[1]`. -/
def combineSorted (a b : String) : String :=
  if strLt a b then a ++ b else b ++ a

/-- The shipped `verifyProof` from `VoteProofs.tsx`: fold the proof
path, sorting each pair before hashing, then compare with the root. -/
def verifyProof (merkleRoot voteHash : String) (proofPath : List String) : Bool :=
  (proofPath.foldl (fun currentHash sibling =>
      sha256Hex (combineSorted currentHash sibling)) voteHash) == merkleRoot

/-- Modelled from the spec: the dual-order recursive verifier of §4.4
(also the `tryAllPaths` routine the repository documents for
`VoteProofs.tsx`): with an empty path compare with the root; otherwise
try the current hash on the left and on the right of the sibling. -/
def verifySpec (merkleRoot : String) : String → List String → Bool
  | h, [] => h == merkleRoot
  | h, s :: rest =>
      verifySpec merkleRoot (sha256Hex (h ++ s)) rest
        || verifySpec merkleRoot (sha256Hex (s ++ h)) rest

/-! ## The engine (modelled from the spec)

The tally engine (`tally.rs`) is not among the provided sources — the
repository carries only its documentation snippets — so the definitions
below are modelled from the specification (§3, §4.3), which matches
those snippets. -/

/-- A ballot record as handed to the engine (the `nonce` field is
carried on the wire but ignored). Modelled from the spec: §3. -/
structure BallotRecord where
  user : String
  encrypted_vote : String
  timestamp : Nat
deriving DecidableEq, Repr

/-- Modelled from the spec: leaf fingerprint
`SHA-256(utf8(voter) ++ le64(timestamp_ns) ++ utf8(ciphertext_hex))`,
lowercase hex (§3, and the `tally.rs` leaf-pass snippet). -/
def leafFingerprint (r : BallotRecord) : String :=
  bytesToHexStr (sha256Bytes
    (utf8Encode r.user ++ le64 r.timestamp ++ utf8Encode r.encrypted_vote))

/-- Modelled from the spec: pair a level's nodes in index order, the
parent hashing the concatenated hex text of the two children; an odd
last node is paired with itself (§3). -/
def pairUp (H : String → String) : List String → List String
  | [] => []
  | [x] => [H (x ++ x)]
  | x :: y :: rest => H (x ++ y) :: pairUp H rest

/-- Modelled from the spec: reduce a level to the root by repeated
pairing; the root of an empty batch is the hash of the empty string
(§3). Fuel-structural; `level.length` units always suffice. -/
def merkleRootAux (H : String → String) : Nat → List String → String
  | _, [] => H ""
  | 0, l => l.headD (H "")
  | fuel + 1, l =>
      if l.length ≤ 1 then l.headD (H "")
      else merkleRootAux H fuel (pairUp H l)

/-- Modelled from the spec: the Merkle root of a leaf list (§4.3.2
step 5). -/
def merkleRoot (H : String → String) (leaves : List String) : String :=
  merkleRootAux H leaves.length leaves

/-- Modelled from the spec: the sibling of index `i` in a level — the
pair partner, or the node itself when it is the odd last node (§4.3.2
step 6). -/
def proofSibling (l : List String) (i : Nat) : String :=
  if i % 2 == 0 then
    if i + 1 < l.length then l.getD (i + 1) "" else l.getD i ""
  else l.getD (i - 1) ""

/-- Modelled from the spec: walk from the leaf level upward, collecting
one sibling per level, stopping when the level has a single node
(§4.3.2 step 6). Fuel-structural; `level.length` units suffice. -/
def genProofAux (H : String → String) : Nat → List String → Nat → List String
  | 0, _, _ => []
  | fuel + 1, l, i =>
      if l.length ≤ 1 then []
      else proofSibling l i :: genProofAux H fuel (pairUp H l) (i / 2)

/-- Modelled from the spec: the inclusion proof for leaf `i`. -/
def genProof (H : String → String) (leaves : List String) (i : Nat) : List String :=
  genProofAux H leaves.length leaves i

/-! ## Per-voter reduction and the tally (modelled from the spec) -/

/-- The decryption oracle: for a fixed master secret and DAO, the key
derived for a voter is a function of the voter string, so decryption of
a ciphertext is a function of `(voter, ciphertext_hex)`; `none` is the
authentication-failure sentinel (bad hex, truncation, bad tag). The
actual hybrid scheme is a library primitive outside this development. -/
def DecOracle : Type := String → String → Option String

/-- Modelled from the spec: a record contributes to the per-voter
mapping only if its plaintext decrypted successfully and equals exactly
"yes" or "no" (§4.3.2 step 2). -/
def validPlain (dec : DecOracle) (r : BallotRecord) : Option String :=
  match dec r.user r.encrypted_vote with
  | some p => if p = "yes" || p = "no" then some p else none
  | none => none

/-- Modelled from the spec: insert or replace a voter's entry; an
existing entry is replaced iff the new timestamp is strictly greater
(§4.3.2 step 2, the `HashMap` update of the documented engine). The
mapping is an association list keyed by voter. -/
def updateVote (m : List (String × String × Nat)) (v p : String) (ts : Nat) :
    List (String × String × Nat) :=
  match m with
  | [] => [(v, p, ts)]
  | (u, q, t) :: rest =>
      if u = v then
        if ts > t then (u, p, ts) :: rest else (u, q, t) :: rest
      else (u, q, t) :: updateVote rest v p ts

/-- Look up a voter's current entry in the mapping. -/
def lookupVote (m : List (String × String × Nat)) (v : String) :
    Option (String × Nat) :=
  match m with
  | [] => none
  | (u, q, t) :: rest => if u = v then some (q, t) else lookupVote rest v

/-- Modelled from the spec: process one record of the decrypt pass in
input order (§4.3.2 step 2). -/
def tallyStep (dec : DecOracle) (m : List (String × String × Nat))
    (r : BallotRecord) : List (String × String × Nat) :=
  match validPlain dec r with
  | some p => updateVote m r.user p r.timestamp
  | none => m

/-- Modelled from the spec: the full per-voter reduction over the batch
in input order (§4.3.2 step 2). -/
def userVotes (dec : DecOracle) (votes : List BallotRecord) :
    List (String × String × Nat) :=
  votes.foldl (tallyStep dec) []

/-- One emitted inclusion proof (`merkle_proofs` entry of the
`tally_votes` output; field names from the wire schema and
`types.ts`). -/
structure MerkleProof where
  voter : String
  vote_index : Nat
  vote_hash : String
  proof_path : List String
  timestamp : Nat
deriving DecidableEq, Repr

/-- The `tally_votes` result (wire schema §6). -/
structure TallyResult where
  proposal_id : Nat
  yes_count : Nat
  no_count : Nat
  total_votes : Nat
  votes_merkle_root : String
  merkle_proofs : List MerkleProof
  tee_attestation : String
deriving DecidableEq, Repr

/-- The attestation, as the repository documents it
(`generate_tee_attestation` in the engine snippets): hash the decimal
proposal id, the root, and the decimal counts joined by ":", and prefix
`"mvp-attestation:"`. -/
def generate_tee_attestation (proposal_id : Nat) (merkle_root : String)
    (yes no : Nat) : String :=
  "mvp-attestation:" ++ sha256Hex (decString proposal_id ++ ":" ++ merkle_root
    ++ ":" ++ decString yes ++ ":" ++ decString no)

/-- Modelled from the spec: the per-record proof list (§4.3.2 step 6) —
one entry per submitted ballot, ordered as the input batch, each with
the 0-based index, the leaf, and the sibling path. -/
def tallyProofs (leaves : List String) (votes : List BallotRecord) :
    List MerkleProof :=
  (List.range votes.length).map (fun i =>
    { voter := (votes.getD i ⟨"", "", 0⟩).user
      vote_index := i
      vote_hash := leaves.getD i ""
      proof_path := genProof sha256Hex leaves i
      timestamp := (votes.getD i ⟨"", "", 0⟩).timestamp })

/-- Modelled from the spec: the `tally_votes` action (§4.3.2): per-voter
reduction, counts, leaf pass over every record in input order, tree
build, per-record proofs, attestation. -/
def tally_votes (dec : DecOracle) (proposal_id : Nat)
    (votes : List BallotRecord) : TallyResult :=
  let m := userVotes dec votes
  let yes := m.countP (fun e => e.2.1 == "yes")
  let no := m.countP (fun e => e.2.1 == "no")
  let leaves := votes.map leafFingerprint
  let root := merkleRoot sha256Hex leaves
  { proposal_id := proposal_id
    yes_count := yes
    no_count := no
    total_votes := yes + no
    votes_merkle_root := root
    merkle_proofs := tallyProofs leaves votes
    tee_attestation := generate_tee_attestation proposal_id root yes no }

/-! ## The client's vote-hash computation (`handleVote`,
`VoteOnProposal.tsx`)

The transaction result carries the contract-assigned timestamp as text;
the code keeps it as a string, converts with `BigInt`, and serializes
with `setBigUint64(0, v, true)`; it then concatenates the UTF-8 bytes
of the account id, the 8 timestamp bytes, and the UTF-8 bytes of the
ciphertext hex string, hashes with SHA-256, and renders each byte as
two lowercase hex digits. -/

/-- The 8 little-endian timestamp bytes the client derives from the
textual timestamp: `BigInt(timestamp)` then `setBigUint64(0, v, true)`. -/
def clientTimestampBytes (timestamp : String) : List Nat :=
  le64 (parseDec timestamp)

/-- The vote hash `handleVote` computes and displays. -/
def clientVoteHash (accountId : String) (timestamp : String)
    (encrypted : String) : String :=
  bytesToHexStr (sha256Bytes
    (utf8Encode accountId ++ clientTimestampBytes timestamp ++ utf8Encode encrypted))


/-! ## Output-shape lemmas: digests are 32 bytes, hex strings are 64
lowercase hex characters -/

theorem u32Bytes_lt {b w : Nat} (h : b ∈ u32Bytes w) : b < 256 := by
  simp only [u32Bytes, List.mem_cons, List.not_mem_nil, or_false] at h
  rcases h with rfl | rfl | rfl | rfl <;> omega

theorem sha256Bytes_length (msg : List Nat) : (sha256Bytes msg).length = 32 := by
  simp [sha256Bytes, u32Bytes]

theorem sha256Bytes_lt {msg : List Nat} {b : Nat} (h : b ∈ sha256Bytes msg) :
    b < 256 := by
  simp only [sha256Bytes, List.mem_append] at h
  rcases h with ((((((h | h) | h) | h) | h) | h) | h) | h <;> exact u32Bytes_lt h

theorem hexDigitChar_mem (n : Nat) : hexDigitChar n ∈ hexAlphabet := by
  unfold hexDigitChar
  rcases h : hexAlphabet[n]? with _ | c
  · simp [List.getD_eq_getElem?_getD, h]
    decide
  · have hc : c ∈ hexAlphabet := by
      have := List.getElem?_eq_some_iff.mp h
      obtain ⟨hlt, heq⟩ := this
      exact heq ▸ List.getElem_mem hlt
    simpa [List.getD_eq_getElem?_getD, h] using hc

theorem bytesToHex_mem : ∀ (l : List Nat) (c : Char), c ∈ bytesToHex l →
    c ∈ hexAlphabet
  | [], c, h => by simp [bytesToHex] at h
  | b :: rest, c, h => by
      simp only [bytesToHex, List.mem_cons] at h
      rcases h with rfl | rfl | h
      · exact hexDigitChar_mem _
      · exact hexDigitChar_mem _
      · exact bytesToHex_mem rest c h

theorem bytesToHex_length : ∀ l : List Nat, (bytesToHex l).length = 2 * l.length
  | [] => rfl
  | b :: rest => by simp [bytesToHex, bytesToHex_length rest]; omega

theorem sha256Hex_length (s : String) : (sha256Hex s).length = 64 := by
  simp [sha256Hex, bytesToHexStr, String.length, bytesToHex_length,
    sha256Bytes_length]

theorem sha256Hex_mem {s : String} {c : Char} (h : c ∈ (sha256Hex s).data) :
    c ∈ hexAlphabet := by
  simp only [sha256Hex, bytesToHexStr] at h
  exact bytesToHex_mem _ _ h

/-! ## Decimal round trip: the wire decimal string parses back to the
same number under `BigInt` semantics -/

theorem decDigitChar_toNat {n : Nat} (h : n < 10) :
    (decDigitChar n).toNat = 48 + n := by
  interval_cases n <;> decide

theorem decDigitsAux_parse : ∀ (fuel n a : Nat), n < 10 ^ fuel →
    List.foldl parseStep a (decDigitsAux fuel n)
      = a * 10 ^ (decDigitsAux fuel n).length + n
  | 0, n, a, h => by
      simp only [Nat.pow_zero, Nat.lt_one_iff] at h
      simp [decDigitsAux, h]
  | fuel + 1, n, a, h => by
      by_cases hn : n < 10
      · simp [decDigitsAux, hn, parseStep, decDigitChar_toNat hn]
        omega
      · have hdiv : n / 10 < 10 ^ fuel := by
          rw [Nat.pow_succ] at h
          exact Nat.div_lt_of_lt_mul (by omega)
        have ih := decDigitsAux_parse fuel (n / 10) a hdiv
        simp only [decDigitsAux, if_neg hn, List.foldl_append, ih,
          List.length_append, List.foldl_cons, List.foldl_nil,
          List.length_cons, List.length_nil]
        have hmod : (decDigitChar (n % 10)).toNat = 48 + n % 10 :=
          decDigitChar_toNat (Nat.mod_lt _ (by omega))
        simp only [parseStep, hmod]
        have hdm : 10 * (n / 10) + n % 10 = n := Nat.div_add_mod n 10
        calc 10 * (a * 10 ^ (decDigitsAux fuel (n / 10)).length + n / 10)
              + (48 + n % 10 - 48)
            = a * (10 ^ (decDigitsAux fuel (n / 10)).length * 10)
              + (10 * (n / 10) + n % 10) := by ring_nf; omega
          _ = a * 10 ^ ((decDigitsAux fuel (n / 10)).length + (0 + 1)) + n := by
              rw [hdm, Nat.pow_succ]
  
theorem parseDec_decString (n : Nat) : parseDec (decString n) = n := by
  have hlt : n < 10 ^ (n + 1) :=
    Nat.lt_of_lt_of_le (Nat.lt_pow_self (by omega) n)
      (Nat.pow_le_pow_right (by omega) (Nat.le_succ n))
  have h := decDigitsAux_parse (n + 1) n 0 hlt
  simpa [parseDec, decString] using h

/-! ## Little-endian 64-bit bytes are injective below 2^64 -/

theorem le64_inj {t1 t2 : Nat} (h1 : t1 < 18446744073709551616)
    (h2 : t2 < 18446744073709551616) (h : le64 t1 = le64 t2) : t1 = t2 := by
  simp only [le64, List.cons.injEq, and_true] at h
  omega

/-! ## Merkle structure lemmas -/

theorem pairUp_length (H : String → String) :
    ∀ l : List String, (pairUp H l).length = (l.length + 1) / 2
  | [] => rfl
  | [_] => by simp [pairUp]
  | _ :: _ :: rest => by
      simp only [pairUp, List.length_cons, pairUp_length H rest]
      omega

theorem genProofAux_length (H : String → String) :
    ∀ (fuel : Nat) (l : List String) (i : Nat), 0 < l.length →
      l.length ≤ fuel + 1 →
      (genProofAux H fuel l i).length = Nat.clog 2 l.length
  | 0, l, _, hpos, hfuel => by
      have h1 : l.length = 1 := by omega
      simp [genProofAux, h1, Nat.clog_one_right]
  | fuel + 1, l, i, hpos, hfuel => by
      by_cases h2 : l.length ≤ 1
      · have h1 : l.length = 1 := by omega
        simp [genProofAux, h1, Nat.clog_one_right]
      · have hlen := pairUp_length H l
        have hp1 : 0 < (pairUp H l).length := by rw [hlen]; omega
        have hp2 : (pairUp H l).length ≤ fuel + 1 := by rw [hlen]; omega
        have ih := genProofAux_length H fuel (pairUp H l) (i / 2) hp1 hp2
        simp only [genProofAux, if_neg h2, List.length_cons, ih, hlen]
        conv_rhs => rw [Nat.clog_of_two_le (by omega) (by omega)]
        have harg : (l.length + 2 - 1) / 2 = (l.length + 1) / 2 := by omega
        rw [harg]

theorem genProof_length (H : String → String) (leaves : List String) (i : Nat)
    (h : 0 < leaves.length) :
    (genProof H leaves i).length = Nat.clog 2 leaves.length :=
  genProofAux_length H leaves.length leaves i h (by omega)

theorem merkleRoot_single (H : String → String) (l : String) :
    merkleRoot H [l] = l := rfl

theorem genProof_single (H : String → String) (l : String) (i : Nat) :
    genProof H [l] i = [] := rfl

/-! ## The sorted pair combination is symmetric -/

theorem charListLt_asymm : ∀ l1 l2 : List Char,
    charListLt l1 l2 = true → charListLt l2 l1 = false
  | [], [] => by simp [charListLt]
  | [], _ :: _ => by simp [charListLt]
  | _ :: _, [] => by simp [charListLt]
  | c :: cs, d :: ds => by
      intro h
      by_cases h1 : c.toNat < d.toNat
      · simp [charListLt, h1, Nat.lt_asymm h1]
      · by_cases h2 : d.toNat < c.toNat
        · simp [charListLt, h1, h2] at h
        · simp only [charListLt, if_neg h1, if_neg h2] at h
          simp only [charListLt, if_neg h2, if_neg h1]
          exact charListLt_asymm cs ds h

theorem charListLt_total_eq : ∀ l1 l2 : List Char,
    charListLt l1 l2 = false → charListLt l2 l1 = false → l1 = l2
  | [], [] => fun _ _ => rfl
  | [], _ :: _ => by simp [charListLt]
  | _ :: _, [] => by simp [charListLt]
  | c :: cs, d :: ds => by
      intro h1 h2
      by_cases hcd : c.toNat < d.toNat
      · simp [charListLt, hcd] at h1
      · by_cases hdc : d.toNat < c.toNat
        · simp [charListLt, hdc] at h2
        · have hc : c = d := Char.ext (UInt32.toNat.inj (by
            simp only [Char.toNat] at hcd hdc
            omega))
          subst hc
          simp only [charListLt, if_neg hcd, if_neg hdc] at h1 h2
          rw [charListLt_total_eq cs ds h1 h2]

theorem combineSorted_comm (a b : String) :
    combineSorted a b = combineSorted b a := by
  unfold combineSorted
  by_cases h : strLt a b
  · have h2 : strLt b a = false := by
      simp only [strLt] at h ⊢
      exact charListLt_asymm a.data b.data h
    rw [if_pos h, if_neg (by simp [h2])]
  · by_cases h2 : strLt b a
    · rw [if_neg h, if_pos h2]
    · have hd : a.data = b.data := by
        simp only [strLt, Bool.not_eq_true] at h h2
        exact charListLt_total_eq a.data b.data h h2
      have hab : a = b := by
        cases a with
        | mk la =>
          cases b with
          | mk lb =>
            simp only at hd
            rw [hd]
      rw [hab]

/-! ## Per-voter reduction lemmas -/

theorem validPlain_token {dec : DecOracle} {r : BallotRecord} {p : String}
    (h : validPlain dec r = some p) : p = "yes" ∨ p = "no" := by
  unfold validPlain at h
  rcases hd : dec r.user r.encrypted_vote with _ | p0 <;> rw [hd] at h
  · exact absurd h (by simp)
  · by_cases hy : p0 = "yes"
    · simp only [hy] at h
      simp at h
      exact Or.inl h.symm
    · by_cases hn : p0 = "no"
      · simp only [hn] at h
        simp at h
        exact Or.inr h.symm
      · simp [hy, hn] at h

theorem lookupVote_updateVote :
    ∀ (m : List (String × String × Nat)) (v p : String) (ts : Nat),
      lookupVote (updateVote m v p ts) v
        = some (match lookupVote m v with
                | none => (p, ts)
                | some (q, t) => if ts > t then (p, ts) else (q, t))
  | [], v, p, ts => by simp [updateVote, lookupVote]
  | (u, q, t) :: rest, v, p, ts => by
      by_cases hu : u = v
      · subst hu
        by_cases hts : ts > t <;> simp [updateVote, hts, lookupVote]
      · simp only [updateVote, if_neg hu, lookupVote,
          lookupVote_updateVote rest v p ts]

theorem updateVote_stale :
    ∀ (m : List (String × String × Nat)) (v p : String) (ts : Nat)
      (q : String) (t : Nat), lookupVote m v = some (q, t) → ¬ ts > t →
      updateVote m v p ts = m
  | [], v, p, ts, q, t, hl, _ => by simp [lookupVote] at hl
  | (u, q0, t0) :: rest, v, p, ts, q, t, hl, hts => by
      by_cases hu : u = v
      · subst hu
        simp [lookupVote] at hl
        simp [updateVote, hl.2, hts]
      · simp only [lookupVote, if_neg hu] at hl
        simp [updateVote, hu, updateVote_stale rest v p ts q t hl hts]

theorem updateVote_comm :
    ∀ (m : List (String × String × Nat)) (v p1 : String) (t1 : Nat)
      (p2 : String) (t2 : Nat), t1 ≠ t2 →
      updateVote (updateVote m v p1 t1) v p2 t2
        = updateVote (updateVote m v p2 t2) v p1 t1
  | [], v, p1, t1, p2, t2, h => by
      simp only [updateVote, if_pos rfl]
      split_ifs <;> first | rfl | omega
  | (u, q, t) :: rest, v, p1, t1, p2, t2, h => by
      by_cases hu : u = v
      · subst hu
        by_cases h1 : t1 > t <;> by_cases h2 : t2 > t <;>
          simp [updateVote, h1, h2] <;> (try split_ifs) <;>
          first | rfl | omega
      · simp only [updateVote, if_neg hu, List.cons.injEq, true_and]
        exact updateVote_comm rest v p1 t1 p2 t2 h

theorem mem_keys_updateVote :
    ∀ (m : List (String × String × Nat)) (v p : String) (ts : Nat)
      (u : String),
      u ∈ (updateVote m v p ts).map Prod.fst ↔ u ∈ m.map Prod.fst ∨ u = v
  | [], v, p, ts, u => by simp [updateVote]
  | (w, q, t) :: rest, v, p, ts, u => by
      by_cases hw : w = v
      · subst hw
        simp only [updateVote, if_pos rfl]
        split_ifs <;> simp <;> tauto
      · simp only [updateVote, if_neg hw, List.map_cons, List.mem_cons,
          mem_keys_updateVote rest v p ts u]
        tauto

theorem nodup_keys_updateVote :
    ∀ (m : List (String × String × Nat)) (v p : String) (ts : Nat),
      (m.map Prod.fst).Nodup → ((updateVote m v p ts).map Prod.fst).Nodup
  | [], v, p, ts, _ => by simp [updateVote]
  | (w, q, t) :: rest, v, p, ts, h => by
      simp only [List.map_cons, List.nodup_cons] at h
      by_cases hw : w = v
      · subst hw
        simp only [updateVote, if_pos rfl]
        split_ifs <;> simp only [List.map_cons, List.nodup_cons] <;>
          exact ⟨h.1, h.2⟩
      · simp only [updateVote, if_neg hw, List.map_cons, List.nodup_cons]
        refine ⟨fun hmem => ?_, nodup_keys_updateVote rest v p ts h.2⟩
        rcases (mem_keys_updateVote rest v p ts w).mp hmem with hm | hm
        · exact h.1 hm
        · exact hw hm

theorem mem_updateVote :
    ∀ (m : List (String × String × Nat)) (v p : String) (ts : Nat)
      (e : String × String × Nat),
      e ∈ updateVote m v p ts → e ∈ m ∨ e = (v, p, ts)
  | [], v, p, ts, e, h => by simpa [updateVote] using h
  | (w, q, t) :: rest, v, p, ts, e, h => by
      by_cases hw : w = v
      · subst hw
        by_cases hts : ts > t
        · simp only [updateVote, if_pos rfl, if_pos hts] at h
          rcases List.mem_cons.mp h with rfl | hm
          · right; rfl
          · left; exact List.mem_cons_of_mem _ hm
        · simp only [updateVote, if_pos rfl, if_neg hts] at h
          left; exact h
      · simp only [updateVote, if_neg hw] at h
        rcases List.mem_cons.mp h with rfl | hm
        · left; exact List.mem_cons_self _ _
        · rcases mem_updateVote rest v p ts e hm with hm2 | hm2
          · left; exact List.mem_cons_of_mem _ hm2
          · right; exact hm2

theorem tallyStep_invalid {dec : DecOracle}
    {m : List (String × String × Nat)} {r : BallotRecord}
    (h : validPlain dec r = none) : tallyStep dec m r = m := by
  simp [tallyStep, h]

theorem tallyStep_comm {dec : DecOracle} (m : List (String × String × Nat))
    (a b : BallotRecord) (hu : a.user = b.user)
    (ht : a.timestamp ≠ b.timestamp) :
    tallyStep dec (tallyStep dec m a) b = tallyStep dec (tallyStep dec m b) a := by
  rcases hva : validPlain dec a with _ | pa <;>
    rcases hvb : validPlain dec b with _ | pb <;>
      simp only [tallyStep, hva, hvb]
  rw [← hu]
  exact updateVote_comm m a.user pa a.timestamp pb b.timestamp ht

theorem tallyStep_tie {dec : DecOracle} (m : List (String × String × Nat))
    (a b : BallotRecord) (hu : a.user = b.user)
    (ht : a.timestamp = b.timestamp) {pa : String}
    (hva : validPlain dec a = some pa) :
    tallyStep dec (tallyStep dec m a) b = tallyStep dec m a := by
  rcases hvb : validPlain dec b with _ | pb
  · exact tallyStep_invalid hvb
  · have hl := lookupVote_updateVote m a.user pa a.timestamp
    simp only [tallyStep, hva, hvb]
    rcases hlm : lookupVote m a.user with _ | qt
    · rw [hlm] at hl
      exact updateVote_stale _ b.user pb b.timestamp pa a.timestamp
        (by rw [← hu]; simpa using hl) (by omega)
    · rw [hlm] at hl
      by_cases hgt : a.timestamp > qt.2
      · have : lookupVote (updateVote m a.user pa a.timestamp) a.user
            = some (pa, a.timestamp) := by simpa [hgt] using hl
        exact updateVote_stale _ b.user pb b.timestamp pa a.timestamp
          (by rw [← hu]; exact this) (by omega)
      · have : lookupVote (updateVote m a.user pa a.timestamp) a.user
            = some (qt.1, qt.2) := by simpa [hgt] using hl
        exact updateVote_stale _ b.user pb b.timestamp qt.1 qt.2
          (by rw [← hu]; exact this) (by omega)

theorem nodup_keys_foldl (dec : DecOracle) :
    ∀ (votes : List BallotRecord) (m : List (String × String × Nat)),
      (m.map Prod.fst).Nodup →
      ((votes.foldl (tallyStep dec) m).map Prod.fst).Nodup
  | [], m, h => h
  | r :: rest, m, h => by
      apply nodup_keys_foldl dec rest
      rcases hv : validPlain dec r with _ | p
      · rwa [tallyStep_invalid hv]
      · simp only [tallyStep, hv]
        exact nodup_keys_updateVote m r.user p r.timestamp h

theorem keys_foldl_subset (dec : DecOracle) :
    ∀ (votes : List BallotRecord) (m : List (String × String × Nat))
      (u : String), u ∈ (votes.foldl (tallyStep dec) m).map Prod.fst →
      u ∈ m.map Prod.fst ∨ u ∈ votes.map BallotRecord.user
  | [], m, u, h => Or.inl h
  | r :: rest, m, u, h => by
      rcases keys_foldl_subset dec rest (tallyStep dec m r) u h with hm | hm
      · rcases hv : validPlain dec r with _ | p
        · rw [tallyStep_invalid hv] at hm
          exact Or.inl hm
        · simp only [tallyStep, hv] at hm
          rcases (mem_keys_updateVote m r.user p r.timestamp u).mp hm with h2 | h2
          · exact Or.inl h2
          · right
            rw [List.map_cons, h2]
            exact List.mem_cons_self _ _
      · right
        rw [List.map_cons]
        exact List.mem_cons_of_mem _ hm

theorem values_foldl (dec : DecOracle) :
    ∀ (votes : List BallotRecord) (m : List (String × String × Nat)),
      (∀ e ∈ m, e.2.1 = "yes" ∨ e.2.1 = "no") →
      ∀ e ∈ votes.foldl (tallyStep dec) m, e.2.1 = "yes" ∨ e.2.1 = "no"
  | [], m, h => h
  | r :: rest, m, h => by
      apply values_foldl dec rest
      rcases hv : validPlain dec r with _ | p
      · rwa [tallyStep_invalid hv]
      · simp only [tallyStep, hv]
        intro e he
        rcases mem_updateVote m r.user p r.timestamp e he with hm | hm
        · exact h e hm
        · rw [hm]
          exact validPlain_token hv

/-! ## Emitted-proof access lemmas -/

theorem getD_map_range {α : Type} (f : Nat → α) (n i : Nat) (d : α)
    (h : i < n) : ((List.range n).map f).getD i d = f i := by
  rw [List.getD_eq_getElem?_getD, List.getElem?_map, List.getElem?_range h]
  rfl

theorem tallyProofs_getD (leaves : List String) (votes : List BallotRecord)
    (i : Nat) (d : MerkleProof) (h : i < votes.length) :
    (tallyProofs leaves votes).getD i d
      = { voter := (votes.getD i ⟨"", "", 0⟩).user
          vote_index := i
          vote_hash := leaves.getD i ""
          proof_path := genProof sha256Hex leaves i
          timestamp := (votes.getD i ⟨"", "", 0⟩).timestamp } :=
  getD_map_range _ votes.length i d h

theorem tallyProofs_length (leaves : List String) (votes : List BallotRecord) :
    (tallyProofs leaves votes).length = votes.length := by
  simp [tallyProofs]

/-! ## Claim theorems -/

/-- C10: the shipped client verifier is symmetric in each consumed hash
pair: because `verifyProof` sorts `[currentHash, sibling]` before
concatenating and hashing, for all hash strings `a` and `b`, every
remaining proof tail `rest`, and every root, `verifyProof` on leaf `a`
with path `b :: rest` returns the same boolean as on leaf `b` with path
`a :: rest` — the outcome depends only on the unordered pair consumed
at the first step. -/
theorem c10_verifier_pair_symmetric (root a b : String) (rest : List String) :
    verifyProof root a (b :: rest) = verifyProof root b (a :: rest) := by
  simp only [verifyProof, List.foldl_cons]
  rw [combineSorted_comm]

set_option maxRecDepth 1000000 in
/-- C1: the shipped `verifyProof` does not compute the spec's dual-order
recursion: on the leaf of all-ones hex with an all-zeros sibling and the
root hashed in the engine's fixed (leaf ++ sibling) order, the
dual-order verifier of the spec accepts while the shipped sorting
verifier, which hashes the lexicographically smaller string first,
rejects. -/
theorem c1_sorted_client_is_not_dual_order :
    verifySpec
        (sha256Hex
          ("ffffffffffffffffffffffffffffffffffffffffffffffffffffffffffffffff"
            ++ "0000000000000000000000000000000000000000000000000000000000000000"))
        "ffffffffffffffffffffffffffffffffffffffffffffffffffffffffffffffff"
        ["0000000000000000000000000000000000000000000000000000000000000000"] = true
      ∧ verifyProof
          (sha256Hex
            ("ffffffffffffffffffffffffffffffffffffffffffffffffffffffffffffffff"
              ++ "0000000000000000000000000000000000000000000000000000000000000000"))
          "ffffffffffffffffffffffffffffffffffffffffffffffffffffffffffffffff"
          ["0000000000000000000000000000000000000000000000000000000000000000"]
        = false := by
  constructor
  · decide
  · decide

set_option maxRecDepth 1000000 in
/-- C2: on a concrete two-ballot batch the engine's own emitted proof
for leaf 0 is valid under the spec's dual-order verifier but is rejected
by the shipped sorting `verifyProof` (the two leaf fingerprints happen
to be in decreasing lexicographic order, so the sorted preimage differs
from the engine's fixed-order preimage). -/
theorem c2_engine_proof_rejected_by_client :
    (let res := tally_votes (fun _ _ => none) 7
        [⟨"alice.testnet", "aa", 10⟩, ⟨"bob.testnet", "bb", 20⟩]
     let pr := res.merkle_proofs.getD 0 ⟨"", 0, "", [], 0⟩
     verifySpec res.votes_merkle_root pr.vote_hash pr.proof_path = true
       ∧ verifyProof res.votes_merkle_root pr.vote_hash pr.proof_path = false) := by
  constructor
  · decide
  · decide

/-- C3: for every voter string, `u64` timestamp and ciphertext hex
string, the vote hash the client computes in `handleVote` (UTF-8 voter
bytes, 8 little-endian timestamp bytes obtained from the decimal
timestamp text through `BigInt`, UTF-8 ciphertext-hex bytes, SHA-256,
lowercase hex) is byte-identical to the engine's leaf fingerprint for
the same record, and is 64 lowercase hex characters. -/
theorem c3_client_vote_hash_matches_engine_leaf (voter ct : String) (ts : Nat)
    (h : ts < 18446744073709551616) :
    clientVoteHash voter (decString ts) ct = leafFingerprint ⟨voter, ct, ts⟩
      ∧ (clientVoteHash voter (decString ts) ct).length = 64
      ∧ ∀ c ∈ (clientVoteHash voter (decString ts) ct).data, c ∈ hexAlphabet := by
  refine ⟨?_, ?_, ?_⟩
  · simp [clientVoteHash, clientTimestampBytes, leafFingerprint,
      parseDec_decString]
  · simp [clientVoteHash, bytesToHexStr, String.length, bytesToHex_length,
      sha256Bytes_length]
  · intro c hc
    simp only [clientVoteHash, bytesToHexStr] at hc
    exact bytesToHex_mem _ _ hc

/-- Witness for C3 at the NEAR nanosecond timestamp 1762633750157553364
(which exceeds 2^53). -/
theorem c3_client_vote_hash_matches_engine_leaf_witness :
    (1762633750157553364 : Nat) < 18446744073709551616
      ∧ (clientVoteHash "alice.testnet" (decString 1762633750157553364) "aa"
            = leafFingerprint ⟨"alice.testnet", "aa", 1762633750157553364⟩
          ∧ (clientVoteHash "alice.testnet"
              (decString 1762633750157553364) "aa").length = 64
          ∧ ∀ c ∈ (clientVoteHash "alice.testnet"
              (decString 1762633750157553364) "aa").data, c ∈ hexAlphabet) :=
  ⟨by decide, c3_client_vote_hash_matches_engine_leaf "alice.testnet" "aa"
      1762633750157553364 (by decide)⟩

/-- C4: the client's timestamp handling is exact on the full `u64`
range: the 8 little-endian bytes derived from the decimal timestamp
text through `BigInt` equal the little-endian encoding of the value
itself, and the encoding is injective below 2^64 — so no value, in
particular none above 2^53, is corrupted in the hash preimage. -/
theorem c4_timestamp_bytes_exact (ts ts2 : Nat)
    (h1 : ts < 18446744073709551616) (h2 : ts2 < 18446744073709551616) :
    clientTimestampBytes (decString ts) = le64 ts
      ∧ (clientTimestampBytes (decString ts)
          = clientTimestampBytes (decString ts2) → ts = ts2) := by
  constructor
  · simp [clientTimestampBytes, parseDec_decString]
  · intro h
    simp only [clientTimestampBytes, parseDec_decString] at h
    exact le64_inj h1 h2 h

/-- Witness for C4 at two distinct timestamps above 2^53. -/
theorem c4_timestamp_bytes_exact_witness :
    9007199254740992 < (1762633750157553364 : Nat)
      ∧ (1762633750157553364 : Nat) < 18446744073709551616
      ∧ (clientTimestampBytes (decString 1762633750157553364)
            = le64 1762633750157553364
          ∧ (clientTimestampBytes (decString 1762633750157553364)
              = clientTimestampBytes (decString 1762633750157553365)
              → 1762633750157553364 = 1762633750157553365)) :=
  ⟨by decide, by decide,
    c4_timestamp_bytes_exact 1762633750157553364 1762633750157553365
      (by decide) (by decide)⟩

set_option maxRecDepth 1000000 in
/-- C5 counterexample: at proposal id 7, the empty-batch root, and
counts 2 and 1, the emitted attestation is not the string
`"attestation:"` followed by the hex digest the claim prescribes — the
engine's prefix is `"mvp-attestation:"`. -/
theorem c5_attestation_prefix_counterexample :
    generate_tee_attestation 7 (sha256Hex "") 2 1
      ≠ "attestation:" ++ sha256Hex (decString 7 ++ ":" ++ sha256Hex "" ++ ":"
          ++ decString 2 ++ ":" ++ decString 1) := by
  decide

/-- C5 amended: the emitted attestation is exactly the string
`"mvp-attestation:"` followed by the 64-lowercase-hex SHA-256 of the
UTF-8 concatenation of the decimal proposal id, ":", the merkle root,
":", the decimal yes count, ":", and the decimal no count. -/
theorem c5_attestation_format (pid : Nat) (root : String) (yes no : Nat) :
    generate_tee_attestation pid root yes no
        = "mvp-attestation:" ++ sha256Hex (decString pid ++ ":" ++ root ++ ":"
            ++ decString yes ++ ":" ++ decString no)
      ∧ (sha256Hex (decString pid ++ ":" ++ root ++ ":" ++ decString yes
          ++ ":" ++ decString no)).length = 64
      ∧ ∀ c ∈ (sha256Hex (decString pid ++ ":" ++ root ++ ":" ++ decString yes
          ++ ":" ++ decString no)).data, c ∈ hexAlphabet :=
  ⟨rfl, sha256Hex_length _, fun _ hc => sha256Hex_mem hc⟩

/-- Entries of the per-voter mapping always carry a canonical token:
the sum of the "yes" and "no" counts is the number of entries. -/
theorem countP_yes_no : ∀ m : List (String × String × Nat),
    (∀ e ∈ m, e.2.1 = "yes" ∨ e.2.1 = "no") →
    m.countP (fun e => e.2.1 == "yes") + m.countP (fun e => e.2.1 == "no")
      = m.length
  | [], _ => rfl
  | e :: rest, h => by
      have he := h e (List.mem_cons_self _ _)
      have ih := countP_yes_no rest (fun x hx => h x (List.mem_cons_of_mem _ hx))
      rcases he with he | he <;> simp [List.countP_cons, he, ih] <;> omega

/-- C6: per-voter "latest wins" semantics of the tally reduction: a
record leaves the mapping unchanged unless it decrypted to a canonical
token; a contributing record replaces the voter's stored entry iff its
timestamp is strictly greater; on an exact timestamp tie the earlier
record in input order wins; swapping two same-voter records with
distinct timestamps does not change the resulting mapping; and the
mapping never holds more than one entry per voter. -/
theorem c6_latest_wins_per_voter (dec : DecOracle)
    (m : List (String × String × Nat)) (a b : BallotRecord)
    (hu : a.user = b.user) :
    (validPlain dec a = none → tallyStep dec m a = m)
      ∧ (∀ pa q t, validPlain dec a = some pa →
          lookupVote m a.user = some (q, t) → ¬ a.timestamp > t →
          tallyStep dec m a = m)
      ∧ (∀ pa q t, validPlain dec a = some pa →
          lookupVote m a.user = some (q, t) → a.timestamp > t →
          lookupVote (tallyStep dec m a) a.user = some (pa, a.timestamp))
      ∧ (∀ pa, validPlain dec a = some pa → a.timestamp = b.timestamp →
          tallyStep dec (tallyStep dec m a) b = tallyStep dec m a)
      ∧ (a.timestamp ≠ b.timestamp →
          tallyStep dec (tallyStep dec m a) b
            = tallyStep dec (tallyStep dec m b) a)
      ∧ (∀ (votes : List BallotRecord) (v : String),
          (userVotes dec votes).countP (fun e => e.1 == v) ≤ 1) := by
  refine ⟨fun h => tallyStep_invalid h, ?_, ?_, ?_, ?_, ?_⟩
  · intro pa q t hv hl hts
    simp only [tallyStep, hv]
    exact updateVote_stale m a.user pa a.timestamp q t hl hts
  · intro pa q t hv hl hts
    simp only [tallyStep, hv]
    have h2 := lookupVote_updateVote m a.user pa a.timestamp
    rw [hl] at h2
    simpa [hts] using h2
  · exact fun pa hv ht => tallyStep_tie m a b hu ht hv
  · exact tallyStep_comm m a b hu
  · intro votes v
    have hnd : ((userVotes dec votes).map Prod.fst).Nodup :=
      nodup_keys_foldl dec votes [] (by simp)
    have hc : (userVotes dec votes).countP (fun e => e.1 == v)
        = ((userVotes dec votes).map Prod.fst).count v := by
      rw [List.count_eq_countP, List.countP_map]
      rfl
    rw [hc]
    exact List.nodup_iff_count_le_one.mp hnd v

/-- Witness for C6 at two same-voter records with timestamps 10 and 20. -/
theorem c6_latest_wins_per_voter_witness :
    ((⟨"alice.testnet", "aa", 10⟩ : BallotRecord) : BallotRecord).user = ((⟨"alice.testnet", "bb", 20⟩ : BallotRecord) : BallotRecord).user
      ∧ ((validPlain (fun _ _ => none) (⟨"alice.testnet", "aa", 10⟩ : BallotRecord) = none →
            tallyStep (fun _ _ => none) [] (⟨"alice.testnet", "aa", 10⟩ : BallotRecord) = [])
        ∧ (∀ pa q t, validPlain (fun _ _ => none) (⟨"alice.testnet", "aa", 10⟩ : BallotRecord) = some pa →
            lookupVote [] ((⟨"alice.testnet", "aa", 10⟩ : BallotRecord) : BallotRecord).user = some (q, t) →
            ¬ ((⟨"alice.testnet", "aa", 10⟩ : BallotRecord) : BallotRecord).timestamp > t →
            tallyStep (fun _ _ => none) [] (⟨"alice.testnet", "aa", 10⟩ : BallotRecord) = [])
        ∧ (∀ pa q t, validPlain (fun _ _ => none) (⟨"alice.testnet", "aa", 10⟩ : BallotRecord) = some pa →
            lookupVote [] ((⟨"alice.testnet", "aa", 10⟩ : BallotRecord) : BallotRecord).user = some (q, t) →
            ((⟨"alice.testnet", "aa", 10⟩ : BallotRecord) : BallotRecord).timestamp > t →
            lookupVote (tallyStep (fun _ _ => none) [] (⟨"alice.testnet", "aa", 10⟩ : BallotRecord))
                ((⟨"alice.testnet", "aa", 10⟩ : BallotRecord) : BallotRecord).user
              = some (pa, ((⟨"alice.testnet", "aa", 10⟩ : BallotRecord) : BallotRecord).timestamp))
        ∧ (∀ pa, validPlain (fun _ _ => none) (⟨"alice.testnet", "aa", 10⟩ : BallotRecord) = some pa →
            ((⟨"alice.testnet", "aa", 10⟩ : BallotRecord) : BallotRecord).timestamp = ((⟨"alice.testnet", "bb", 20⟩ : BallotRecord) : BallotRecord).timestamp →
            tallyStep (fun _ _ => none) (tallyStep (fun _ _ => none) [] (⟨"alice.testnet", "aa", 10⟩ : BallotRecord)) (⟨"alice.testnet", "bb", 20⟩ : BallotRecord)
              = tallyStep (fun _ _ => none) [] (⟨"alice.testnet", "aa", 10⟩ : BallotRecord))
        ∧ (((⟨"alice.testnet", "aa", 10⟩ : BallotRecord) : BallotRecord).timestamp ≠ ((⟨"alice.testnet", "bb", 20⟩ : BallotRecord) : BallotRecord).timestamp →
            tallyStep (fun _ _ => none) (tallyStep (fun _ _ => none) [] (⟨"alice.testnet", "aa", 10⟩ : BallotRecord)) (⟨"alice.testnet", "bb", 20⟩ : BallotRecord)
              = tallyStep (fun _ _ => none)
                  (tallyStep (fun _ _ => none) [] (⟨"alice.testnet", "bb", 20⟩ : BallotRecord)) (⟨"alice.testnet", "aa", 10⟩ : BallotRecord))
        ∧ (∀ (votes : List BallotRecord) (v : String),
            (userVotes (fun _ _ => none) votes).countP (fun e => e.1 == v)
              ≤ 1)) :=
  ⟨rfl, c6_latest_wins_per_voter (fun _ _ => none) [] (⟨"alice.testnet", "aa", 10⟩ : BallotRecord) (⟨"alice.testnet", "bb", 20⟩ : BallotRecord) rfl⟩

/-- C7: for every batch the tally satisfies
`yes_count + no_count = total_votes`, and `total_votes` is at most the
number of distinct voter identifiers appearing in the batch. -/
theorem c7_counts_bounded_by_distinct_voters (dec : DecOracle) (pid : Nat)
    (votes : List BallotRecord) :
    (tally_votes dec pid votes).yes_count + (tally_votes dec pid votes).no_count
        = (tally_votes dec pid votes).total_votes
      ∧ (tally_votes dec pid votes).total_votes
          ≤ (votes.map BallotRecord.user).dedup.length := by
  have e1 : (tally_votes dec pid votes).yes_count
      = (userVotes dec votes).countP (fun e => e.2.1 == "yes") := rfl
  have e2 : (tally_votes dec pid votes).no_count
      = (userVotes dec votes).countP (fun e => e.2.1 == "no") := rfl
  have e3 : (tally_votes dec pid votes).total_votes
      = (userVotes dec votes).countP (fun e => e.2.1 == "yes")
        + (userVotes dec votes).countP (fun e => e.2.1 == "no") := rfl
  refine ⟨by rw [e1, e2, e3], ?_⟩
  rw [e3]
  have hvals : ∀ e ∈ userVotes dec votes, e.2.1 = "yes" ∨ e.2.1 = "no" :=
    values_foldl dec votes [] (by simp)
  rw [countP_yes_no (userVotes dec votes) hvals]
  have hnd : ((userVotes dec votes).map Prod.fst).Nodup :=
    nodup_keys_foldl dec votes [] (by simp)
  have hsub : ∀ u ∈ (userVotes dec votes).map Prod.fst,
      u ∈ votes.map BallotRecord.user := by
    intro u hu
    rcases keys_foldl_subset dec votes [] u hu with h | h
    · simp at h
    · exact h
  calc (userVotes dec votes).length
      = ((userVotes dec votes).map Prod.fst).length :=
        (List.length_map _ _).symm
    _ = ((userVotes dec votes).map Prod.fst).toFinset.card :=
        (List.toFinset_card_of_nodup hnd).symm
    _ ≤ (votes.map BallotRecord.user).toFinset.card := by
        apply Finset.card_le_card
        intro x hx
        rw [List.mem_toFinset] at hx ⊢
        exact hsub x hx
    _ = (votes.map BallotRecord.user).dedup.length := List.card_toFinset _

/-- C8: a record with no valid plaintext (bad hex, truncation,
authentication failure, or a non-canonical token — all the cases where
`validPlain` is `none`) contributes nothing to any count, yet its leaf
fingerprint is still computed at its input position and a proof is
still emitted for every record; the tally itself is a total function of
the batch. -/
theorem c8_invalid_record_committed_not_counted (dec : DecOracle)
    (pid : Nat) (pre post : List BallotRecord) (r : BallotRecord)
    (h : validPlain dec r = none) :
    (tally_votes dec pid (pre ++ r :: post)).yes_count
        = (tally_votes dec pid (pre ++ post)).yes_count
      ∧ (tally_votes dec pid (pre ++ r :: post)).no_count
          = (tally_votes dec pid (pre ++ post)).no_count
      ∧ (tally_votes dec pid (pre ++ r :: post)).total_votes
          = (tally_votes dec pid (pre ++ post)).total_votes
      ∧ (pre ++ r :: post).map leafFingerprint
          = pre.map leafFingerprint
            ++ leafFingerprint r :: post.map leafFingerprint
      ∧ (tally_votes dec pid (pre ++ r :: post)).merkle_proofs.length
          = pre.length + 1 + post.length := by
  have hm : userVotes dec (pre ++ r :: post) = userVotes dec (pre ++ post) := by
    simp only [userVotes, List.foldl_append, List.foldl_cons,
      tallyStep_invalid h]
  have e1 : ∀ vs : List BallotRecord, (tally_votes dec pid vs).yes_count
      = (userVotes dec vs).countP (fun e => e.2.1 == "yes") := fun _ => rfl
  have e2 : ∀ vs : List BallotRecord, (tally_votes dec pid vs).no_count
      = (userVotes dec vs).countP (fun e => e.2.1 == "no") := fun _ => rfl
  have e3 : ∀ vs : List BallotRecord, (tally_votes dec pid vs).total_votes
      = (userVotes dec vs).countP (fun e => e.2.1 == "yes")
        + (userVotes dec vs).countP (fun e => e.2.1 == "no") := fun _ => rfl
  have e5 : ∀ vs : List BallotRecord,
      (tally_votes dec pid vs).merkle_proofs.length = vs.length := fun vs => by
    rw [show (tally_votes dec pid vs).merkle_proofs
        = tallyProofs (vs.map leafFingerprint) vs from rfl]
    exact tallyProofs_length _ _
  refine ⟨?_, ?_, ?_, by simp, ?_⟩
  · rw [e1, e1, hm]
  · rw [e2, e2, hm]
  · rw [e3, e3, hm]
  · rw [e5]
    simp only [List.length_append, List.length_cons]
    omega

/-- Witness for C8 with an always-failing decryption oracle and a
one-record batch. -/
theorem c8_invalid_record_committed_not_counted_witness :
    validPlain (fun _ _ => none) (⟨"alice.testnet", "aa", 10⟩ : BallotRecord) = none
      ∧ ((tally_votes (fun _ _ => none) 1 ([] ++ (⟨"alice.testnet", "aa", 10⟩ : BallotRecord) :: [])).yes_count
            = (tally_votes (fun _ _ => none) 1 ([] ++ [])).yes_count
        ∧ (tally_votes (fun _ _ => none) 1 ([] ++ (⟨"alice.testnet", "aa", 10⟩ : BallotRecord) :: [])).no_count
            = (tally_votes (fun _ _ => none) 1 ([] ++ [])).no_count
        ∧ (tally_votes (fun _ _ => none) 1 ([] ++ (⟨"alice.testnet", "aa", 10⟩ : BallotRecord) :: [])).total_votes
            = (tally_votes (fun _ _ => none) 1 ([] ++ [])).total_votes
        ∧ ([] ++ (⟨"alice.testnet", "aa", 10⟩ : BallotRecord) :: []).map leafFingerprint
            = ([] : List BallotRecord).map leafFingerprint
              ++ leafFingerprint (⟨"alice.testnet", "aa", 10⟩ : BallotRecord)
                :: ([] : List BallotRecord).map leafFingerprint
        ∧ (tally_votes (fun _ _ => none) 1
              ([] ++ (⟨"alice.testnet", "aa", 10⟩ : BallotRecord) :: [])).merkle_proofs.length
            = List.length ([] : List BallotRecord) + 1
              + List.length ([] : List BallotRecord)) :=
  ⟨rfl, c8_invalid_record_committed_not_counted (fun _ _ => none) 1 [] [] (⟨"alice.testnet", "aa", 10⟩ : BallotRecord) rfl⟩

/-- C9: for a batch of `n ≥ 1` records every emitted inclusion proof
has length exactly `⌈log₂ n⌉` (`Nat.clog 2 n`), and for a one-record
batch the proof path is empty and the record's vote hash equals the
merkle root. -/
theorem c9_proof_length_is_clog (dec : DecOracle) (pid : Nat)
    (votes : List BallotRecord) (h : 0 < votes.length) :
    (∀ i, i < votes.length →
        ((tally_votes dec pid votes).merkle_proofs.getD i
            ⟨"", 0, "", [], 0⟩).proof_path.length = Nat.clog 2 votes.length)
      ∧ (∀ r, votes = [r] →
          ((tally_votes dec pid votes).merkle_proofs.getD 0
              ⟨"", 0, "", [], 0⟩).proof_path = []
            ∧ ((tally_votes dec pid votes).merkle_proofs.getD 0
                ⟨"", 0, "", [], 0⟩).vote_hash
              = (tally_votes dec pid votes).votes_merkle_root) := by
  constructor
  · intro i hi
    rw [show (tally_votes dec pid votes).merkle_proofs
        = tallyProofs (votes.map leafFingerprint) votes from rfl]
    rw [tallyProofs_getD _ _ i _ hi]
    have hlen : (votes.map leafFingerprint).length = votes.length :=
      List.length_map _ _
    show (genProof sha256Hex (votes.map leafFingerprint) i).length
      = Nat.clog 2 votes.length
    rw [genProof_length sha256Hex _ i (by rw [hlen]; exact h), hlen]
  · intro r hr
    subst hr
    exact ⟨rfl, rfl⟩

/-- Witness for C9 at a one-record batch. -/
theorem c9_proof_length_is_clog_witness :
    0 < List.length [(⟨"dave.testnet", "dd", 40⟩ : BallotRecord)]
      ∧ ((∀ i, i < List.length [(⟨"dave.testnet", "dd", 40⟩ : BallotRecord)] →
            ((tally_votes (fun _ _ => none) 1
                [(⟨"dave.testnet", "dd", 40⟩ : BallotRecord)]).merkle_proofs.getD i
                ⟨"", 0, "", [], 0⟩).proof_path.length
              = Nat.clog 2
                  (List.length [(⟨"dave.testnet", "dd", 40⟩ : BallotRecord)]))
        ∧ (∀ r, [(⟨"dave.testnet", "dd", 40⟩ : BallotRecord)] = [r] →
            ((tally_votes (fun _ _ => none) 1
                [(⟨"dave.testnet", "dd", 40⟩ : BallotRecord)]).merkle_proofs.getD 0
                ⟨"", 0, "", [], 0⟩).proof_path = []
              ∧ ((tally_votes (fun _ _ => none) 1
                  [(⟨"dave.testnet", "dd", 40⟩ : BallotRecord)]).merkle_proofs.getD 0
                  ⟨"", 0, "", [], 0⟩).vote_hash
                = (tally_votes (fun _ _ => none) 1
                    [(⟨"dave.testnet", "dd", 40⟩ : BallotRecord)]).votes_merkle_root)) :=
  ⟨by decide, c9_proof_length_is_clog (fun _ _ => none) 1
      [(⟨"dave.testnet", "dd", 40⟩ : BallotRecord)] (by decide)⟩

end PrivateDao
